import Mathlib

/-!
# Verification of the ebook-scraper specification against its source

Shallow embedding of the Go program `mdepp/ebook-scraper` (files
`ebook-scraper.go`, `transport.go`, and the most complete program variant in
the unnamed source file, which adds the cover-URL guard, the phrack dedup set
and the scribblehub chain walk).  Pure functions of the source are translated
to Lean functions; the colly-driven crawls are translated to explicit
state-passing recursion with a fuel bound (fuel exhaustion models
non-termination); Go byte slices are modelled as lists of characters; the
external go-epub library is modelled as a pure document-builder sink.
-/

namespace EbookScraper

/-! ## Data model (ebook-scraper.go / unnamed variant, top of file) -/

/-- `TOCEntry` struct: one ordered position of the document. -/
structure TOCEntry where
  url : String
deriving Repr, DecidableEq

/-- `Chapter` struct: one fetched unit of content. -/
structure Chapter where
  title : String
  content : String
deriving Repr, DecidableEq

/-- `Metadata` struct. -/
structure Metadata where
  title : String
  author : String
  coverURL : String
  description : String
deriving Repr, DecidableEq

/-- Go `map[string]Chapter`, modelled as an association list.  Reads use
`chaptersGet` which returns the zero value for a missing key, exactly like a
Go map read. -/
abbrev ChapterMap := List (String × Chapter)

/-- Go map read `m[k]`: zero value (`Chapter{"",""}`) when the key is absent. -/
def chaptersGet (m : ChapterMap) (k : String) : Chapter :=
  match m.find? (fun p => p.1 = k) with
  | some p => p.2
  | none => ⟨"", ""⟩

/-- Go map write `m[k] = v`: overwrite if present, else add. -/
def chaptersPut (m : ChapterMap) (k : String) (v : Chapter) : ChapterMap :=
  match m with
  | [] => [(k, v)]
  | (k', v') :: rest => if k' = k then (k, v) :: rest else (k', v') :: chaptersPut rest k v

/-- A sequence of completed chapter fetches, applied in completion order. -/
def chaptersPutAll (m : ChapterMap) (completed : List (String × Chapter)) : ChapterMap :=
  completed.foldl (fun acc p => chaptersPut acc p.1 p.2) m

/-- `ScrapedBook` struct. -/
structure ScrapedBook where
  meta : Metadata
  toc : List TOCEntry
  chapters : ChapterMap

/-! ## The go-epub sink (external library, modelled as a pure builder)

`NewEpub`, `SetAuthor`, `AddImage`, `AddCSS`, `SetCover`, `SetDescription`,
`AddSection` of the go-epub library.  With an auto-generated internal
filename (the program always passes `""`) these calls do not fail, so the
model records their effects and always succeeds. -/

structure Epub where
  title : String
  author : String
  images : List (String × String)
  cssFiles : List String
  cover : Option (String × String)
  description : Option String
  sections : List (String × String)
deriving Repr, DecidableEq

def newEpub (title : String) : Epub :=
  ⟨title, "", [], [], none, none, []⟩

def setAuthor (doc : Epub) (author : String) : Epub :=
  { doc with author := author }

/-- `doc.AddImage(source, name)` returns the internal image path. -/
def addImage (doc : Epub) (source : String) (name : String) : String × Epub :=
  ("images/" ++ name, { doc with images := doc.images ++ [(source, name)] })

/-- `doc.AddCSS(source, "")` returns the internal css path. -/
def addCSS (doc : Epub) (source : String) : String × Epub :=
  ("css/" ++ source, { doc with cssFiles := doc.cssFiles ++ [source] })

def setCover (doc : Epub) (imagePath cssPath : String) : Epub :=
  { doc with cover := some (imagePath, cssPath) }

def setDescription (doc : Epub) (d : String) : Epub :=
  { doc with description := some d }

/-- `doc.AddSection(content, title, "", "")` appends one section. -/
def addSection (doc : Epub) (content : String) (title : String) : Epub :=
  { doc with sections := doc.sections ++ [(content, title)] }

/-! ## assembleEpub (unnamed variant, the one with the cover-URL guard)

```go
func assembleEpub(book ScrapedBook) (*epub.Epub, error) {
    doc := epub.NewEpub(book.meta.Title)
    doc.SetAuthor(book.meta.Author)
    if book.meta.CoverURL != "" {
        coverImage, err := doc.AddImage(book.meta.CoverURL, "cover")
        ...
        coverCSS, err := doc.AddCSS("assets/cover.css", "")
        ...
        doc.SetCover(coverImage, coverCSS)
        doc.SetDescription(book.meta.Description)
    }
    for _, tocEntry := range book.toc {
        chapter := book.chapters[tocEntry.URL]
        _, err := doc.AddSection(chapter.Content, chapter.Title, "", "")
        ...
    }
    return doc, nil
}
```
The progress bar is observability only and is not modelled.  The `err`
branches come from the modelled library calls, which always succeed here, so
the `Except` structure is kept but the error branch is unreachable. -/

def addTocSections (doc : Epub) (chapters : ChapterMap) : List TOCEntry → Except String Epub
  | [] => .ok doc
  | e :: rest =>
    let chapter := chaptersGet chapters e.url
    addTocSections (addSection doc chapter.content chapter.title) chapters rest

/-- The metadata/cover phase of `assembleEpub` (everything before the TOC
loop). -/
def coverPhase (book : ScrapedBook) : Epub :=
  let doc := setAuthor (newEpub book.meta.title) book.meta.author
  if book.meta.coverURL ≠ "" then
    let (coverImage, doc) := addImage doc book.meta.coverURL "cover"
    let (coverCSS, doc) := addCSS doc "assets/cover.css"
    setDescription (setCover doc coverImage coverCSS) book.meta.description
  else doc

def assembleEpub (book : ScrapedBook) : Except String Epub :=
  addTocSections (coverPhase book) book.chapters book.toc

/-! ## Transport adapter (transport.go)

Byte slices are modelled as `List Char`.  `DELIMITER = "\n\n\n"`. -/

def DELIM : List Char := ['\n', '\n', '\n']

/-- `bytes.Split(s, DELIMITER)`: greedy left-to-right split on the first
occurrence of the delimiter, specialised to the three-newline delimiter (the
only separator the program ever splits on). -/
def splitD : List Char → List (List Char)
  | [] => [[]]
  | '\n' :: '\n' :: '\n' :: rest => [] :: splitD rest
  | c :: rest =>
    match splitD rest with
    | [] => [[c]]
    | p :: ps => (c :: p) :: ps

/-- `bytes.Join(parts, DELIMITER)`. -/
def joinD : List (List Char) → List Char
  | [] => []
  | [p] => p
  | p :: ps => p ++ DELIM ++ joinD ps

/-- `bytes.Count(s, DELIMITER)`: number of non-overlapping occurrences,
counted by the same greedy scan as `bytes.Split`. -/
def countD : List Char → Nat
  | [] => 0
  | '\n' :: '\n' :: '\n' :: rest => countD rest + 1
  | _ :: rest => countD rest

/-- `rsplit(s, DELIMITER, n)` from transport.go:

```go
func rsplit(s, sep []byte, n int) [][]byte {
    parts := bytes.Split(s, sep)
    if len(parts) < n {
        return parts
    }
    return append([][]byte{bytes.Join(parts[:len(parts)-n+1], sep)}, parts[len(parts)-n+1:]...)
}
```
The program only calls it with `sep = DELIMITER` and `n = 3`. -/
def rsplit (s : List Char) (n : Nat) : List (List Char) :=
  let parts := splitD s
  if parts.length < n then parts
  else joinD (parts.take (parts.length - n + 1)) :: parts.drop (parts.length - n + 1)

/-! ### strconv.Atoi and parseHTTPVersion -/

/-- Decimal value of a digit string. -/
def digitsVal (ds : List Char) : Nat :=
  ds.foldl (fun a c => a * 10 + (c.toNat - 48)) 0

/-- The sign/digit decomposition used by `strconv.Atoi`: an optional leading
sign followed by the digit characters. -/
def signSplit (s : List Char) : Bool × List Char :=
  match s with
  | '-' :: rest => (true, rest)
  | '+' :: rest => (false, rest)
  | _ => (false, s)

/-- The integer denoted by a numeric string (sign applied to digit value). -/
def intOfNumeric (s : List Char) : Int :=
  let (neg, ds) := signSplit s
  if neg then -(digitsVal ds : Int) else (digitsVal ds : Int)

/-- Shape check of `strconv.Atoi`: an optional sign followed by at least one
digit, and nothing else. -/
def numericShape (s : List Char) : Bool :=
  let (_, ds) := signSplit s
  !ds.isEmpty && ds.all Char.isDigit

/-- Range check of `strconv.Atoi` on a 64-bit platform (Go `int` is 64-bit on
the targets this program runs on): values outside the signed 64-bit range
yield `ErrRange`. -/
def atoiInRange (v : Int) : Bool :=
  decide (-(2 ^ 63) ≤ v) && decide (v ≤ 2 ^ 63 - 1)

/-- `strconv.Atoi` (Go standard library): parses an optional sign followed by
decimal digits; errors on an empty or non-numeric string and on values
outside the platform int range. -/
def atoi (s : List Char) : Except Unit Int :=
  if numericShape s then
    let v := intOfNumeric s
    if atoiInRange v then .ok v else .error ()
  else .error ()

/-- `strings.Cut(s, ".")`: split at the first dot; the `Bool` is the `found`
result. -/
def cutDot : List Char → List Char × List Char × Bool
  | [] => ([], [], false)
  | '.' :: rest => ([], rest, true)
  | c :: rest =>
    let (before, after, found) := cutDot rest
    (c :: before, after, found)

/-- `parseHTTPVersion` from transport.go:

```go
func parseHTTPVersion(versionString string) (int, int, error) {
    major, minor, found := strings.Cut(versionString, ".")
    if !found {
        major = versionString
        minor = "0"
    }
    majorInt, err := strconv.Atoi(major)
    ...
    minorInt, err := strconv.Atoi(minor)
    ...
    return majorInt, minorInt, nil
}
```
-/
def parseHTTPVersion (versionString : List Char) : Except Unit (Int × Int) :=
  let (major0, after, found) := cutDot versionString
  let major := if found then major0 else versionString
  let minor := if found then after else ['0']
  match atoi major with
  | .error e => .error e
  | .ok majorInt =>
    match atoi minor with
    | .error e => .error e
    | .ok minorInt => .ok (majorInt, minorInt)

/-! ### JSON (encoding/json, the subset the adapter decodes)

The two curl trailer blocks are JSON objects whose values are integers,
strings and arrays of strings.  The model parses that subset (integer
numbers only; string escapes without the four-hex-digit form; exotic inputs
outside the subset fail, which coincides with the Go decoder erroring when
such values are decoded into `int` / `string` fields). -/

inductive Jval where
  | jnull
  | jbool (b : Bool)
  | jnum (n : Int)
  | jstr (s : String)
  | jarr (xs : List Jval)
  | jobj (fields : List (String × Jval))

def isJsonWs (c : Char) : Bool :=
  c = ' ' || c = '\t' || c = '\n' || c = '\r'

def skipWs (cs : List Char) : List Char :=
  cs.dropWhile isJsonWs

def unescapeChar (c : Char) : Option Char :=
  match c with
  | '"' => some '"'
  | '\\' => some '\\'
  | '/' => some '/'
  | 'n' => some '\n'
  | 't' => some '\t'
  | 'r' => some '\r'
  | 'b' => some '\x08'
  | 'f' => some '\x0c'
  | _ => none

/-- Body of a JSON string after the opening quote: returns the decoded
content and the remainder after the closing quote. -/
def parseStrBody : List Char → Option (List Char × List Char)
  | [] => none
  | '"' :: rest => some ([], rest)
  | '\\' :: e :: rest =>
    match unescapeChar e with
    | none => none
    | some c =>
      match parseStrBody rest with
      | none => none
      | some (s, r) => some (c :: s, r)
  | c :: rest =>
    match parseStrBody rest with
    | none => none
    | some (s, r) => some (c :: s, r)

/-- A JSON number, integers only (a fraction or exponent is outside the
modelled subset). -/
def parseNumTok (cs : List Char) : Option (Jval × List Char) :=
  let (neg, cs') := match cs with
    | '-' :: r => (true, r)
    | _ => (false, cs)
  let ds := cs'.takeWhile Char.isDigit
  let rest := cs'.dropWhile Char.isDigit
  if ds.isEmpty then none
  else
    match rest with
    | '.' :: _ => none
    | 'e' :: _ => none
    | 'E' :: _ => none
    | _ => some (.jnum (if neg then -(digitsVal ds : Int) else (digitsVal ds : Int)), rest)

mutual

def parseVal : Nat → List Char → Option (Jval × List Char)
  | 0, _ => none
  | fuel + 1, cs =>
    match skipWs cs with
    | [] => none
    | 'n' :: 'u' :: 'l' :: 'l' :: rest => some (.jnull, rest)
    | 't' :: 'r' :: 'u' :: 'e' :: rest => some (.jbool true, rest)
    | 'f' :: 'a' :: 'l' :: 's' :: 'e' :: rest => some (.jbool false, rest)
    | '"' :: rest =>
      match parseStrBody rest with
      | none => none
      | some (s, r) => some (.jstr ⟨s⟩, r)
    | '[' :: rest =>
      match skipWs rest with
      | ']' :: r2 => some (.jarr [], r2)
      | _ => match parseArrItems fuel rest with
        | none => none
        | some (vs, r) => some (.jarr vs, r)
    | '{' :: rest =>
      match skipWs rest with
      | '}' :: r2 => some (.jobj [], r2)
      | _ => match parseObjFields fuel rest with
        | none => none
        | some (fs, r) => some (.jobj fs, r)
    | cs' => parseNumTok cs'

def parseArrItems : Nat → List Char → Option (List Jval × List Char)
  | 0, _ => none
  | fuel + 1, cs =>
    match parseVal fuel cs with
    | none => none
    | some (v, rest) =>
      match skipWs rest with
      | ',' :: r2 =>
        match parseArrItems fuel r2 with
        | none => none
        | some (vs, r) => some (v :: vs, r)
      | ']' :: r2 => some ([v], r2)
      | _ => none

def parseObjFields : Nat → List Char → Option (List (String × Jval) × List Char)
  | 0, _ => none
  | fuel + 1, cs =>
    match skipWs cs with
    | '"' :: rest =>
      match parseStrBody rest with
      | none => none
      | some (key, r1) =>
        match skipWs r1 with
        | ':' :: r2 =>
          match parseVal fuel r2 with
          | none => none
          | some (v, r3) =>
            match skipWs r3 with
            | ',' :: r4 =>
              match parseObjFields fuel r4 with
              | none => none
              | some (fs, r) => some ((⟨key⟩, v) :: fs, r)
            | '}' :: r4 => some ([(⟨key⟩, v)], r4)
            | _ => none
        | _ => none
    | _ => none

end

/-- One complete JSON value followed only by whitespace, as required by
`json.Unmarshal`.  At least one character is consumed for every two units of
fuel spent, so this fuel bound is never the reason a valid input fails. -/
def parseJson (cs : List Char) : Option Jval :=
  match parseVal (2 * cs.length + 4) cs with
  | some (v, rest) => if (skipWs rest).isEmpty then some v else none
  | none => none

/-- The anonymous struct `{ResponseCode int; HTTPVersion string}` the adapter
decodes trailer 1 into. -/
structure CurlExtra where
  responseCode : Int
  httpVersion : String
deriving Repr, DecidableEq

/-- `json.Unmarshal(chunks[1], &extra)`: top level must be an object (or
null, a no-op); known fields decode into their typed destinations (null is a
no-op, a wrong type is an error, a later duplicate overwrites), unknown
fields are ignored, missing fields keep the zero value. -/
def unmarshalExtra (cs : List Char) : Option CurlExtra :=
  match parseJson cs with
  | some (.jobj fields) =>
    fields.foldl
      (fun acc kv =>
        match acc with
        | none => none
        | some ex =>
          if kv.1 = "response_code" then
            match kv.2 with
            | .jnum n => some { ex with responseCode := n }
            | .jnull => some ex
            | _ => none
          else if kv.1 = "http_version" then
            match kv.2 with
            | .jstr s => some { ex with httpVersion := s }
            | .jnull => some ex
            | _ => none
          else some ex)
      (some ⟨0, ""⟩)
  | some .jnull => some ⟨0, ""⟩
  | some _ => none
  | none => none

/-- `http.Header`, a Go map from field name to list of values, modelled as an
association list (one admissible iteration order of the Go map). -/
abbrev HeaderMap := List (String × List String)

def headerPut (h : HeaderMap) (k : String) (vs : List String) : HeaderMap :=
  match h with
  | [] => [(k, vs)]
  | (k', vs') :: rest => if k' = k then (k, vs) :: rest else (k', vs') :: headerPut rest k vs

def strElems : List Jval → Option (List String)
  | [] => some []
  | .jstr s :: rest =>
    match strElems rest with
    | none => none
    | some ss => some (s :: ss)
  | _ => none

/-- `json.Unmarshal(chunks[2], &header)` into `map[string][]string`: object
fields whose values are arrays of strings (null leaves the map nil, i.e.
empty; a null array value leaves that key's slice nil, i.e. empty). -/
def unmarshalHeader (cs : List Char) : Option HeaderMap :=
  match parseJson cs with
  | some (.jobj fields) =>
    fields.foldl
      (fun acc kv =>
        match acc with
        | none => none
        | some h =>
          match kv.2 with
          | .jarr xs =>
            match strElems xs with
            | none => none
            | some ss => some (headerPut h kv.1 ss)
          | .jnull => some (headerPut h kv.1 [])
          | _ => none)
      (some [])
  | some .jnull => some []
  | some _ => none
  | none => none

/-! ### Header canonicalization (net/textproto) -/

/-- `validHeaderFieldByte` of net/textproto. -/
def validHeaderFieldChar (c : Char) : Bool :=
  c.isAlphanum || ("!#$%&'*+-.^_`|~".toList).contains c

def canonChars (upper : Bool) : List Char → List Char
  | [] => []
  | c :: rest =>
    let c' :=
      if upper && ('a' ≤ c && c ≤ 'z') then Char.ofNat (c.toNat - 32)
      else if !upper && ('A' ≤ c && c ≤ 'Z') then Char.ofNat (c.toNat + 32)
      else c
    c' :: canonChars (c = '-') rest

/-- `textproto.CanonicalMIMEHeaderKey`: returned unchanged if any character
is invalid, else upper case at the start and after each hyphen, lower case
elsewhere. -/
def canonicalMIMEHeaderKey (s : String) : String :=
  if s.data.all validHeaderFieldChar then ⟨canonChars true s.data⟩ else s

/-- `http.Header.Del` deletes under the canonical form of the key. -/
def headerDel (h : HeaderMap) (key : String) : HeaderMap :=
  h.filter (fun p => !(p.1 = canonicalMIMEHeaderKey key))

def headerAddC (h : HeaderMap) (ck : String) (v : String) : HeaderMap :=
  match h with
  | [] => [(ck, [v])]
  | (k', vs) :: rest => if k' = ck then (k', vs ++ [v]) :: rest else (k', vs) :: headerAddC rest ck v

/-- `http.Header.Add` appends under the canonical form of the key. -/
def headerAdd (h : HeaderMap) (key : String) (v : String) : HeaderMap :=
  headerAddC h (canonicalMIMEHeaderKey key) v

/-- The canonicalization loop of `RoundTrip`:

```go
for key, values := range header {
    header.Del(key)
    for _, value := range values {
        header.Add(key, value)
    }
}
```
iterating a snapshot of the decoded entries in order (one admissible
execution of the Go map range; re-visiting an entry added during the loop
would be idempotent). -/
def canonicalizeHeader (h : HeaderMap) : HeaderMap :=
  h.foldl (fun acc kv => kv.2.foldl (fun a v => headerAdd a kv.1 v) (headerDel acc kv.1)) h

/-! ### RoundTrip response construction -/

structure HttpResponse where
  status : String
  statusCode : Int
  proto : String
  protoMajor : Int
  protoMinor : Int
  header : HeaderMap
  body : List Char
  contentLength : Int
  transferEncoding : List String
  close : Bool
  uncompressed : Bool
  trailer : HeaderMap
deriving DecidableEq

inductive RTError where
  | badExtraJson
  | badHeaderJson
  | badVersion
deriving Repr, DecidableEq

/-- The response-synthesis part of `CurlTransport.RoundTrip` (transport.go
lines 36-80), as a function of the subprocess stdout `out`.  An
out-of-bounds slice access (a Go panic) is modelled as `none`.  The source
evaluates the chunk indexes in program order: with a single chunk the
`chunks[1]` access panics; with two chunks `json.Unmarshal(chunks[1],
&extra)` runs first and its error is returned (transport.go lines 43-45)
before `chunks[2]` is ever evaluated, so only a decodable second chunk
reaches the out-of-bounds `chunks[2]` access; with three chunks everything
is in bounds.  `rsplit` never yields zero or more than three chunks, so the
final catch-all is unreachable. -/
def roundTrip (out : List Char) : Option (Except RTError HttpResponse) :=
  match rsplit out 3 with
  | [_] => none
  | [_, c1] =>
    match unmarshalExtra c1 with
    | none => some (.error .badExtraJson)
    | some _ => none
  | [body, c1, c2] =>
    some (
      match unmarshalExtra c1 with
      | none => .error .badExtraJson
      | some extra =>
        match unmarshalHeader c2 with
        | none => .error .badHeaderJson
        | some header =>
          match parseHTTPVersion extra.httpVersion.data with
          | .error _ => .error .badVersion
          | .ok (major, minor) =>
            .ok {
              status := toString extra.responseCode
              statusCode := extra.responseCode
              proto := "HTTP/" ++ extra.httpVersion
              protoMajor := major
              protoMinor := minor
              header := canonicalizeHeader header
              body := body
              contentLength := body.length
              transferEncoding := []
              close := true
              uncompressed := false
              trailer := [] })
  | _ => none

/-! ## scrapePhrack (recursive dedup graph walk)

The colly collector is used synchronously: `Visit` inside a handler fetches
and handles the child page before returning, and the collector refuses to
re-fetch an already-visited URL.  A page is modelled by what the three
registered handlers extract from it, in registration order: the `.tissue a`
anchors, the `.details a` anchors, and the body.  A URL without a page in
the site map models a failed fetch (no handler runs).  The recursion carries
a fuel bound; `none` models a crawl that did not finish within the bound. -/

structure PhrackPage where
  tissueLinks : List String
  detailLinks : List String
  pTitle : String
  preText : String
deriving Repr, DecidableEq

abbrev PhrackSite := List (String × PhrackPage)

def phrackPageAt (site : PhrackSite) (u : String) : Option PhrackPage :=
  (site.find? (fun p => p.1 = u)).map Prod.snd

structure PhrackState where
  visited : List String
  toc : List TOCEntry
  tocSet : List String
  chapters : ChapterMap
deriving DecidableEq

/-- The `.tissue a` handler body before the `Visit` call: append a TOCEntry
and record the URL in the dedup set only if the URL was not seen before. -/
def phrackTocStep (s : PhrackState) (v : String) : PhrackState :=
  if v ∈ s.tocSet then s
  else { s with toc := s.toc ++ [⟨v⟩], tocSet := v :: s.tocSet }

/-- Sequential processing of the `.tissue a` anchors of one page, each
running the dedup-append and then a (recursive) `Visit` of the link. -/
def phrackRunTissue (visit : String → PhrackState → Option PhrackState) :
    List String → PhrackState → Option PhrackState
  | [], s => some s
  | v :: rest, s =>
    (visit v (phrackTocStep s v)).bind (fun s' => phrackRunTissue visit rest s')

/-- Sequential processing of the `.details a` anchors of one page: a `Visit`
of each link, without a TOC append. -/
def phrackRunDetails (visit : String → PhrackState → Option PhrackState) :
    List String → PhrackState → Option PhrackState
  | [], s => some s
  | v :: rest, s => (visit v s).bind (fun s' => phrackRunDetails visit rest s')

def phrackVisit (site : PhrackSite) : Nat → String → PhrackState → Option PhrackState
  | 0, _, _ => none
  | fuel + 1, u, s =>
    if u ∈ s.visited then some s
    else
      let s1 : PhrackState := { s with visited := u :: s.visited }
      match phrackPageAt site u with
      | none => some s1
      | some page =>
        (phrackRunTissue (phrackVisit site fuel) page.tissueLinks s1).bind (fun s2 =>
          (phrackRunDetails (phrackVisit site fuel) page.detailLinks s2).map (fun s3 =>
            { s3 with
              chapters := chaptersPut s3.chapters u
                ⟨page.pTitle, "<pre>" ++ page.preText ++ "</pre>"⟩ }))

/-- Every URL the phrack crawl can ever visit: the seed plus every link
occurring in the site. -/
def phrackURLs (site : PhrackSite) (base : String) : List String :=
  base :: (site.map Prod.fst ++ site.flatMap (fun p => p.2.tissueLinks ++ p.2.detailLinks))

/-- `scrapePhrack` over an abstract site: the crawl from the seed, with fuel
one more than the number of visitable URLs (an upper bound on the number of
distinct ones). -/
def scrapePhrack (site : PhrackSite) (base : String) : Option PhrackState :=
  phrackVisit site ((phrackURLs site base).length + 1) base ⟨[], [], [], []⟩

/-- The `ScrapedBook` returned by `scrapePhrack` (metadata is the constant
from the source). -/
def scrapePhrackBook (site : PhrackSite) (base : String) : Option ScrapedBook :=
  (scrapePhrack site base).map
    (fun s => ⟨⟨"Phrack Magazine", "", "http://phrack.org/images/phrack-logo.jpg", ""⟩,
               s.toc, s.chapters⟩)

/-! ## scrapeScribblehub (singly-linked chain walk)

One body handler per visited page, with three independent checks in source
order: (1) a non-empty `.read_buttons a:first-child` href captures Metadata
(unconditionally — the source has no captured-yet guard) and visits it;
(2) non-empty `.chp_raw` content appends a TOCEntry and stores the chapter;
(3) a non-empty `.btn-next` href is visited.  `fetched` is the model's log
of the pages actually fetched, in fetch order. -/

structure ScribblePage where
  firstHref : String
  ficTitle : String
  authName : String
  coverSrc : String
  ficDesc : String
  chapterTitle : String
  chpRaw : String
  btnNext : String
deriving Repr, DecidableEq

abbrev ScribbleSite := List (String × ScribblePage)

def scribblePageAt (site : ScribbleSite) (u : String) : Option ScribblePage :=
  (site.find? (fun p => p.1 = u)).map Prod.snd

structure ScribbleState where
  visited : List String
  fetched : List String
  meta : Metadata
  toc : List TOCEntry
  chapters : ChapterMap
deriving DecidableEq

def scribbleVisit (site : ScribbleSite) (fuel : Nat) (u : String) (s : ScribbleState) :
    Option ScribbleState :=
  match fuel with
  | 0 => none
  | fuel' + 1 =>
    if u ∈ s.visited then some s
    else
      let s1 : ScribbleState := { s with visited := u :: s.visited, fetched := s.fetched ++ [u] }
      match scribblePageAt site u with
      | none => some s1
      | some page =>
        let step1 : Option ScribbleState :=
          if page.firstHref ≠ "" then
            scribbleVisit site fuel' page.firstHref
              { s1 with meta := ⟨page.ficTitle, page.authName, page.coverSrc, page.ficDesc⟩ }
          else some s1
        step1.bind (fun s2 =>
          let s3 : ScribbleState :=
            if page.chpRaw ≠ "" then
              { s2 with toc := s2.toc ++ [⟨u⟩],
                        chapters := chaptersPut s2.chapters u ⟨page.chapterTitle, page.chpRaw⟩ }
            else s2
          if page.btnNext ≠ "" then scribbleVisit site fuel' page.btnNext s3
          else some s3)

/-- Every URL the scribblehub crawl can ever visit. -/
def scribbleURLs (site : ScribbleSite) (base : String) : List String :=
  base :: (site.map Prod.fst ++ site.flatMap (fun p => [p.2.firstHref, p.2.btnNext]))

/-- `scrapeScribblehub` over an abstract site, with fuel one more than the
number of visitable URLs (an upper bound on the number of distinct ones). -/
def scrapeScribblehub (site : ScribbleSite) (base : String) : Option ScribbleState :=
  scribbleVisit site ((scribbleURLs site base).length + 1) base
    ⟨[], [], ⟨"", "", "", ""⟩, [], []⟩

/-! ## Remaining definitions used by the statements -/

deriving instance DecidableEq for Except

/-- The `major` component `parseHTTPVersion` feeds to `Atoi` (the part
before the first dot, or the whole string when there is no dot). -/
def versionMajor (s : List Char) : List Char :=
  match cutDot s with
  | (m, _, f) => if f then m else s

/-- The `minor` component `parseHTTPVersion` feeds to `Atoi` (the part
after the first dot, or `"0"` when there is no dot). -/
def versionMinor (s : List Char) : List Char :=
  match cutDot s with
  | (_, a, f) => if f then a else ['0']

/-- Number of URLs of a candidate set `U` not yet visited in a phrack crawl
state (the termination measure of the dedup graph walk). -/
def phrackUnseen (U : Finset String) (s : PhrackState) : Nat :=
  (U.filter (fun v => v ∉ s.visited)).card

/-- The dedup invariant of the phrack crawl: the TOC URLs are duplicate-free
and `tocSet` is exactly the set of TOC URLs. -/
def PhrackInv (s : PhrackState) : Prop :=
  (s.toc.map TOCEntry.url).Nodup ∧ ∀ v, v ∈ s.toc.map TOCEntry.url ↔ v ∈ s.tocSet

/-- The concrete first trailer block from the specification's transport
round-trip property. -/
def trailer1 : List Char := "\x7b\"response_code\":200,\"http_version\":\"1.1\"\x7d".data

/-- The concrete second trailer block from the specification's transport
round-trip property. -/
def trailer2 : List Char := "\x7b\"Content-Type\":[\"text/html\"]\x7d".data

/-! ## Lemmas about the assembler -/

theorem addTocSections_eq (chapters : ChapterMap) :
    ∀ (toc : List TOCEntry) (doc : Epub),
      addTocSections doc chapters toc =
        .ok { doc with sections := doc.sections ++ toc.map (fun e =>
          ((chaptersGet chapters e.url).content, (chaptersGet chapters e.url).title)) } := by
  intro toc
  induction toc with
  | nil => intro doc; simp [addTocSections]
  | cons e rest ih =>
    intro doc
    simp only [addTocSections, ih, List.map_cons]
    simp [addSection, List.append_assoc]

theorem chaptersGet_cons (k₀ : String) (v₀ : Chapter) (rest : ChapterMap) (k : String) :
    chaptersGet ((k₀, v₀) :: rest) k = if k₀ = k then v₀ else chaptersGet rest k := by
  by_cases h : k₀ = k
  · rw [if_pos h]
    unfold chaptersGet
    rw [List.find?_cons_of_pos _ (by simpa using h)]
  · rw [if_neg h]
    unfold chaptersGet
    rw [List.find?_cons_of_neg _ (by simpa using h)]

theorem chaptersGet_put (m : ChapterMap) (k : String) (v : Chapter) (k' : String) :
    chaptersGet (chaptersPut m k v) k' = if k' = k then v else chaptersGet m k' := by
  induction m with
  | nil =>
    show chaptersGet [(k, v)] k' = _
    rw [chaptersGet_cons]
    by_cases h : k = k'
    · rw [if_pos h, if_pos h.symm]
    · rw [if_neg h, if_neg (fun e => h e.symm)]
  | cons p rest ih =>
    obtain ⟨k₀, v₀⟩ := p
    show chaptersGet (if k₀ = k then (k, v) :: rest else (k₀, v₀) :: chaptersPut rest k v) k' = _
    by_cases h0 : k₀ = k
    · rw [if_pos h0, chaptersGet_cons, chaptersGet_cons]
      by_cases h : k = k'
      · rw [if_pos h, if_pos h.symm]
      · rw [if_neg h, if_neg (fun e => h e.symm), if_neg (h0 ▸ h)]
    · rw [if_neg h0, chaptersGet_cons, ih]
      by_cases h : k₀ = k'
      · rw [if_pos h, if_neg (fun e => h0 (h.trans e)), chaptersGet_cons, if_pos h]
      · rw [if_neg h]
        by_cases hk : k' = k
        · rw [if_pos hk, if_pos hk]
        · rw [if_neg hk, if_neg hk, chaptersGet_cons, if_neg h]

theorem chaptersGet_putAll (k : String) :
    ∀ (l : List (String × Chapter)) (m : ChapterMap), (l.map Prod.fst).Nodup →
      chaptersGet (chaptersPutAll m l) k =
        match l.find? (fun p => p.1 = k) with
        | some p => p.2
        | none => chaptersGet m k := by
  intro l
  induction l with
  | nil => intro m _; simp [chaptersPutAll, List.find?]
  | cons p rest ih =>
    intro m hnd
    obtain ⟨k₀, v₀⟩ := p
    simp only [List.map_cons, List.nodup_cons] at hnd
    have step : chaptersPutAll m ((k₀, v₀) :: rest) = chaptersPutAll (chaptersPut m k₀ v₀) rest := rfl
    rw [step, ih _ hnd.2]
    by_cases h : k₀ = k
    · subst h
      have hnone : rest.find? (fun p => p.1 = k₀) = none := by
        rw [List.find?_eq_none]
        intro x hx
        simp only [decide_eq_true_eq]
        intro hfst
        exact hnd.1 (hfst ▸ List.mem_map_of_mem Prod.fst hx)
      simp [hnone, List.find?, chaptersGet_put]
    · have : (decide ((k₀, v₀).1 = k)) = false := by simpa using h
      simp only [List.find?, this]
      cases hfind : rest.find? (fun p => p.1 = k) with
      | some q => simp
      | none =>
        simp only [chaptersGet_put]
        have : ¬(k = k₀) := fun hk => h hk.symm
        simp [this]

theorem find?_key_perm {l₁ l₂ : List (String × Chapter)} (hperm : l₁.Perm l₂)
    (hnd : (l₁.map Prod.fst).Nodup) (k : String) :
    l₁.find? (fun p => p.1 = k) = l₂.find? (fun p => p.1 = k) := by
  have hnd₂ : (l₂.map Prod.fst).Nodup := (hperm.map Prod.fst).nodup_iff.mp hnd
  cases hfind : l₁.find? (fun p => p.1 = k) with
  | some q =>
    have hq : q ∈ l₁ ∧ q.1 = k := by
      refine ⟨List.mem_of_find?_eq_some hfind, ?_⟩
      have := List.find?_some hfind
      simpa using this
    have hq₂ : q ∈ l₂ := hperm.mem_iff.mp hq.1
    cases hfind₂ : l₂.find? (fun p => p.1 = k) with
    | some q' =>
      have hq' : q' ∈ l₂ ∧ q'.1 = k := by
        refine ⟨List.mem_of_find?_eq_some hfind₂, ?_⟩
        have := List.find?_some hfind₂
        simpa using this
      have : q = q' := List.inj_on_of_nodup_map hnd₂ hq₂ hq'.1 (by rw [hq.2, hq'.2])
      rw [this]
    | none =>
      rw [List.find?_eq_none] at hfind₂
      exact absurd (by simpa using hq.2) (by simpa using hfind₂ q hq₂)
  | none =>
    rw [List.find?_eq_none] at hfind
    cases hfind₂ : l₂.find? (fun p => p.1 = k) with
    | some q' =>
      have hmem : q' ∈ l₁ := hperm.mem_iff.mpr (List.mem_of_find?_eq_some hfind₂)
      have := List.find?_some hfind₂
      exact absurd this (by simpa using hfind q' hmem)
    | none => rfl

theorem addTocSections_congr (c₁ c₂ : ChapterMap)
    (h : ∀ k, chaptersGet c₁ k = chaptersGet c₂ k) (toc : List TOCEntry) (doc : Epub) :
    addTocSections doc c₁ toc = addTocSections doc c₂ toc := by
  rw [addTocSections_eq, addTocSections_eq]
  simp only [h]

theorem coverPhase_sections (book : ScrapedBook) : (coverPhase book).sections = [] := by
  unfold coverPhase
  split <;> rfl

theorem coverPhase_of_empty (book : ScrapedBook) (h : book.meta.coverURL = "") :
    coverPhase book = setAuthor (newEpub book.meta.title) book.meta.author := by
  unfold coverPhase
  rw [if_neg (by simp [h])]

/-- C1: the assembler appends exactly one section per TOC entry, walking the
TOC sequence in its recorded order, so the assembled section sequence is the
TOC-ordered image of the chapter mapping and is independent of the order in
which chapter fetches completed; in particular a TOC `[u1, u2, u3]` with
chapters completed in order `[u3, u1, u2]` assembles to sections in the
order `[u1, u2, u3]`. -/
theorem assembleEpub_toc_order :
    (∀ book doc, assembleEpub book = .ok doc →
      doc.sections = book.toc.map (fun e =>
        ((chaptersGet book.chapters e.url).content, (chaptersGet book.chapters e.url).title)))
    ∧
    (∀ meta toc l₁ l₂, List.Perm l₁ l₂ → (l₁.map Prod.fst).Nodup →
      assembleEpub ⟨meta, toc, chaptersPutAll [] l₁⟩ = assembleEpub ⟨meta, toc, chaptersPutAll [] l₂⟩)
    ∧
    (∀ meta u₁ u₂ u₃ c₁ c₂ c₃, u₁ ≠ u₂ → u₁ ≠ u₃ → u₂ ≠ u₃ →
      ∃ doc,
        assembleEpub ⟨meta, [⟨u₁⟩, ⟨u₂⟩, ⟨u₃⟩], chaptersPutAll [] [(u₃, c₃), (u₁, c₁), (u₂, c₂)]⟩ =
          .ok doc ∧
        doc.sections = [(c₁.content, c₁.title), (c₂.content, c₂.title), (c₃.content, c₃.title)]) := by
  refine ⟨?_, ?_, ?_⟩
  · intro book doc h
    unfold assembleEpub at h
    rw [addTocSections_eq] at h
    cases h
    simp [coverPhase_sections]
  · intro meta toc l₁ l₂ hperm hnd
    unfold assembleEpub
    apply addTocSections_congr
    intro k
    rw [chaptersGet_putAll k l₁ [] hnd, chaptersGet_putAll k l₂ []
      ((hperm.map Prod.fst).nodup_iff.mp hnd)]
    rw [find?_key_perm hperm hnd]
  · intro meta u₁ u₂ u₃ c₁ c₂ c₃ h12 h13 h23
    have hnd : (([(u₃, c₃), (u₁, c₁), (u₂, c₂)]).map Prod.fst).Nodup := by
      simp [Ne.symm h13, Ne.symm h23, h12]
    have hh := addTocSections_eq (chaptersPutAll [] [(u₃, c₃), (u₁, c₁), (u₂, c₂)])
      [⟨u₁⟩, ⟨u₂⟩, ⟨u₃⟩]
      (coverPhase ⟨meta, [⟨u₁⟩, ⟨u₂⟩, ⟨u₃⟩], chaptersPutAll [] [(u₃, c₃), (u₁, c₁), (u₂, c₂)]⟩)
    refine ⟨_, hh, ?_⟩
    show (coverPhase _).sections ++ _ = _
    rw [coverPhase_sections]
    simp only [List.nil_append, List.map_cons, List.map_nil]
    rw [chaptersGet_putAll u₁ _ [] hnd, chaptersGet_putAll u₂ _ [] hnd,
      chaptersGet_putAll u₃ _ [] hnd]
    simp [List.find?, Ne.symm h13, Ne.symm h23, h12]

/-- Closed instance of C1's hypotheses at a concrete book. -/
theorem assembleEpub_toc_order_witness :
    ∃ doc,
      assembleEpub ⟨⟨"T", "A", "", ""⟩, [⟨"u1"⟩, ⟨"u2"⟩, ⟨"u3"⟩],
        chaptersPutAll [] [("u3", ⟨"t3", "c3"⟩), ("u1", ⟨"t1", "c1"⟩), ("u2", ⟨"t2", "c2"⟩)]⟩ =
        .ok doc ∧
      doc.sections = [("c1", "t1"), ("c2", "t2"), ("c3", "t3")] :=
  assembleEpub_toc_order.2.2 ⟨"T", "A", "", ""⟩ "u1" "u2" "u3"
    ⟨"t1", "c1"⟩ ⟨"t2", "c2"⟩ ⟨"t3", "c3"⟩ (by decide) (by decide) (by decide)

/-- C2 (evidence of divergence): on a book whose TOC references a URL with no
chapter entry, `assembleEpub` succeeds and silently appends the Go zero-value
chapter as an empty section, instead of failing with an integrity error. -/
theorem assembleEpub_missing_chapter_silent :
    assembleEpub ⟨⟨"T", "A", "", ""⟩, [⟨"u"⟩], []⟩ =
      .ok ⟨"T", "A", [], [], none, none, [("", "")]⟩ := rfl

/-- C8: with an empty cover URL, assembly succeeds and the produced document
has no cover, no description, and no embedded image or stylesheet; a cover
or description is embedded only when a cover URL is present. -/
theorem assembleEpub_empty_cover :
    (∀ book, book.meta.coverURL = "" →
      ∃ doc, assembleEpub book = .ok doc ∧ doc.cover = none ∧ doc.description = none ∧
        doc.images = [] ∧ doc.cssFiles = [])
    ∧
    (∀ book doc, assembleEpub book = .ok doc →
      (doc.cover ≠ none ∨ doc.description ≠ none) → book.meta.coverURL ≠ "") := by
  constructor
  · intro book hcov
    unfold assembleEpub
    rw [coverPhase_of_empty book hcov, addTocSections_eq]
    exact ⟨_, rfl, rfl, rfl, rfl, rfl⟩
  · intro book doc h hne hcov
    unfold assembleEpub at h
    rw [coverPhase_of_empty book hcov, addTocSections_eq] at h
    cases h
    rcases hne with hne | hne <;> exact hne rfl

/-- Closed instance of C8's hypotheses at a concrete book. -/
theorem assembleEpub_empty_cover_witness :
    ∃ doc, assembleEpub ⟨⟨"T", "A", "", "D"⟩, [⟨"u"⟩], [("u", ⟨"t", "c"⟩)]⟩ = .ok doc ∧
      doc.cover = none ∧ doc.description = none ∧ doc.images = [] ∧ doc.cssFiles = [] :=
  assembleEpub_empty_cover.1 ⟨⟨"T", "A", "", "D"⟩, [⟨"u"⟩], [("u", ⟨"t", "c"⟩)]⟩ rfl

/-! ## Lemmas about the delimiter split -/

theorem splitD_ne_nil (s : List Char) : splitD s ≠ [] := by
  induction s using splitD.induct with
  | case1 => simp [splitD]
  | case2 rest ih => simp [splitD]
  | case3 c rest h hr ih =>
    rw [splitD.eq_3 _ _ h, hr]
    simp
  | case4 c rest h p ps hr ih =>
    rw [splitD.eq_3 _ _ h, hr]
    simp

theorem joinD_cons_ne (x : List Char) (ys : List (List Char)) (h : ys ≠ []) :
    joinD (x :: ys) = x ++ DELIM ++ joinD ys := by
  cases ys with
  | nil => exact absurd rfl h
  | cons y ys' => rfl

theorem joinD_splitD (s : List Char) : joinD (splitD s) = s := by
  induction s using splitD.induct with
  | case1 => rfl
  | case2 rest ih =>
    rw [splitD.eq_2, joinD_cons_ne _ _ (splitD_ne_nil rest), ih]
    rfl
  | case3 c rest h hr ih => exact absurd hr (splitD_ne_nil rest)
  | case4 c rest h p ps hr ih =>
    rw [splitD.eq_3 _ _ h, hr]
    rw [hr] at ih
    cases ps with
    | nil => exact congrArg (List.cons c) ih
    | cons q qs =>
      show (c :: p) ++ DELIM ++ joinD (q :: qs) = c :: rest
      rw [← ih]
      rfl

theorem splitD_length (s : List Char) : (splitD s).length = countD s + 1 := by
  induction s using splitD.induct with
  | case1 => rfl
  | case2 rest ih =>
    rw [splitD.eq_2, countD.eq_2]
    simp [ih]
  | case3 c rest h hr ih => exact absurd hr (splitD_ne_nil rest)
  | case4 c rest h p ps hr ih =>
    rw [splitD.eq_3 _ _ h, hr, countD.eq_3 _ _ h]
    rw [hr] at ih
    simpa using ih

theorem splitD_append_delim (b : List Char) :
    ∀ (a : List Char), a.getLast? ≠ some '\n' →
      splitD (a ++ (DELIM ++ b)) = splitD a ++ splitD b := by
  intro a
  induction a using splitD.induct with
  | case1 =>
    intro _
    rw [List.nil_append, show DELIM ++ b = '\n' :: '\n' :: '\n' :: b from rfl, splitD.eq_2]
    rfl
  | case2 rest ih =>
    intro h
    cases rest with
    | nil => simp at h
    | cons d ds =>
      have h' : (d :: ds).getLast? ≠ some '\n' := by
        simpa [List.getLast?_cons_cons] using h
      show splitD ('\n' :: '\n' :: '\n' :: ((d :: ds) ++ (DELIM ++ b))) = _
      rw [splitD.eq_2, ih h', splitD.eq_2]
      rfl
  | case3 c rest h3 hr ih => exact absurd hr (splitD_ne_nil rest)
  | case4 c rest h3 p ps hr ih =>
    intro h
    have hcond : rest.getLast? ≠ some '\n' := by
      cases rest with
      | nil => simp
      | cons d ds => simpa [List.getLast?_cons_cons] using h
    have h3' : ∀ r, c = '\n' → rest ++ (DELIM ++ b) = '\n' :: '\n' :: r → False := by
      intro r hc happ
      cases rest with
      | nil =>
        subst hc
        simp at h
      | cons d ds =>
        cases ds with
        | nil =>
          have : d = '\n' := by
            have := congrArg (fun l => l.head?) happ
            simpa using this
          rw [List.getLast?_cons_cons] at h
          simp [this] at h
        | cons e tail =>
          have hd : d = '\n' ∧ e = '\n' := by
            have h0 := congrArg (fun l => l.head?) happ
            have h1 := congrArg (fun l => l.tail.head?) happ
            simp at h0 h1
            exact ⟨h0, h1⟩
          exact h3 tail hc (by rw [hd.1, hd.2])
    show splitD (c :: (rest ++ (DELIM ++ b))) = _
    rw [splitD.eq_3 _ _ h3', ih hcond, hr, splitD.eq_3 _ _ h3, hr]
    rfl

theorem joinD_append (xs ys : List (List Char)) (hx : xs ≠ []) (hy : ys ≠ []) :
    joinD (xs ++ ys) = joinD xs ++ DELIM ++ joinD ys := by
  induction xs with
  | nil => exact absurd rfl hx
  | cons x xs' ih =>
    cases xs' with
    | nil =>
      rw [List.cons_append, List.nil_append, joinD_cons_ne _ _ hy]
      rfl
    | cons x₂ xs'' =>
      rw [List.cons_append,
        joinD_cons_ne x ((x₂ :: xs'') ++ ys) (by simp),
        ih (by simp),
        joinD_cons_ne x (x₂ :: xs'') (by simp)]
      simp [List.append_assoc]

/-- C5's intended split property, with the delimiter-hygiene conditions the
source actually requires: the trailers contain no delimiter occurrence, and
neither the body nor the first trailer ends with a newline byte (otherwise
the greedy left scan inside `bytes.Split` consumes trailing newlines as part
of the delimiter).  The body itself may freely contain delimiter sequences. -/
theorem rsplit_trailers (body t1 t2 : List Char)
    (hb : body.getLast? ≠ some '\n') (h1e : t1.getLast? ≠ some '\n')
    (h1 : splitD t1 = [t1]) (h2 : splitD t2 = [t2]) :
    rsplit (body ++ DELIM ++ t1 ++ DELIM ++ t2) 3 = [body, t1, t2] := by
  have hsplit : splitD (body ++ DELIM ++ t1 ++ DELIM ++ t2) = splitD body ++ [t1, t2] := by
    have e1 : body ++ DELIM ++ t1 ++ DELIM ++ t2 = body ++ (DELIM ++ (t1 ++ (DELIM ++ t2))) := by
      simp [List.append_assoc]
    rw [e1, splitD_append_delim _ _ hb, splitD_append_delim _ _ h1e, h1, h2]
    rfl
  have hb1 : 1 ≤ (splitD body).length := by
    have := splitD_ne_nil body
    cases h : (splitD body).length with
    | zero => exact absurd (List.length_eq_zero.mp h) this
    | succ n => omega
  have hlen : (splitD (body ++ DELIM ++ t1 ++ DELIM ++ t2)).length = (splitD body).length + 2 := by
    rw [hsplit]; simp
  simp only [rsplit]
  rw [if_neg (by omega)]
  have hk : (splitD (body ++ DELIM ++ t1 ++ DELIM ++ t2)).length - 3 + 1 = (splitD body).length := by
    omega
  rw [hk, hsplit, List.take_left, List.drop_left, joinD_splitD]

/-- C10 amended: the full `chunks[0] / chunks[1] / chunks[2]` indexing in
`RoundTrip` is in bounds exactly when the subprocess output contains at
least two non-overlapping delimiter occurrences, and under that
precondition `rsplit` returns exactly three parts whose delimiter-join
reconstructs the output; with no delimiter occurrence the `chunks[1]`
access is out of bounds; with exactly one occurrence, `RoundTrip` first
decodes the second segment as trailer 1 and **returns that malformed-trailer
error if the decode fails** — only when the decode succeeds is the
`chunks[2]` access reached and out of bounds. -/
theorem roundTrip_chunk_bounds :
    ∀ out : List Char,
      (2 ≤ countD out →
        (rsplit out 3).length = 3 ∧ joinD (rsplit out 3) = out ∧ (roundTrip out).isSome)
      ∧
      (countD out = 0 → roundTrip out = none)
      ∧
      (countD out = 1 → ∃ p0 p1, rsplit out 3 = [p0, p1] ∧
        roundTrip out = match unmarshalExtra p1 with
          | none => some (.error .badExtraJson)
          | some _ => none) := by
  have hform : ∀ out : List Char, 2 ≤ countD out →
      (rsplit out 3).length = 3 ∧ joinD (rsplit out 3) = out := by
    intro out hc
    have hlen : (splitD out).length = countD out + 1 := splitD_length out
    have hlen3 : ¬((splitD out).length < 3) := by omega
    have hk1 : 1 ≤ (splitD out).length - 3 + 1 := by omega
    have hklt : (splitD out).length - 3 + 1 < (splitD out).length := by omega
    have htake : (splitD out).take ((splitD out).length - 3 + 1) ≠ [] := by
      have : ((splitD out).take ((splitD out).length - 3 + 1)).length =
          (splitD out).length - 3 + 1 := by
        rw [List.length_take]
        omega
      intro hnil
      rw [hnil] at this
      simp at this
    have hdrop : (splitD out).drop ((splitD out).length - 3 + 1) ≠ [] := by
      have : ((splitD out).drop ((splitD out).length - 3 + 1)).length = 2 := by
        rw [List.length_drop]
        omega
      intro hnil
      rw [hnil] at this
      simp at this
    constructor
    · simp only [rsplit]
      rw [if_neg hlen3]
      simp only [List.length_cons, List.length_drop]
      omega
    · simp only [rsplit]
      rw [if_neg hlen3]
      rw [joinD_cons_ne _ _ hdrop, ← joinD_append _ _ htake hdrop, List.take_append_drop,
        joinD_splitD]
  intro out
  have hlen : (splitD out).length = countD out + 1 := splitD_length out
  refine ⟨?_, ?_, ?_⟩
  · intro hc
    obtain ⟨h3, hj⟩ := hform out hc
    refine ⟨h3, hj, ?_⟩
    unfold roundTrip
    obtain ⟨a, b', c', habc⟩ := List.length_eq_three.mp h3
    rw [habc]
    simp
  · intro hc
    have hr : rsplit out 3 = splitD out := by
      simp only [rsplit]
      rw [if_pos (by omega)]
    obtain ⟨a, ha⟩ := List.length_eq_one.mp (show (splitD out).length = 1 by omega)
    unfold roundTrip
    rw [hr, ha]
  · intro hc
    have hr : rsplit out 3 = splitD out := by
      simp only [rsplit]
      rw [if_pos (by omega)]
    obtain ⟨a, b', hab⟩ := List.length_eq_two.mp (show (splitD out).length = 2 by omega)
    refine ⟨a, b', by rw [hr, hab], ?_⟩
    unfold roundTrip
    rw [hr, hab]

/-- C10 as stated is false of the source: with exactly one delimiter
occurrence and a second segment that is not valid JSON, `RoundTrip` returns
the `json.Unmarshal` error for `chunks[1]` (transport.go lines 43-45) before
`chunks[2]` is ever evaluated — a malformed-response error, not an
out-of-bounds access. -/
theorem roundTrip_one_delim_error_cex :
    countD ("x".data ++ DELIM ++ "notjson".data) < 2 ∧
    roundTrip ("x".data ++ DELIM ++ "notjson".data) = some (.error .badExtraJson) := by
  constructor <;> decide

/-- C5 as stated is false: with a body ending in a newline byte, the greedy
left scan inside `bytes.Split` absorbs the body's trailing newline into the
delimiter match, so `rsplit` hands the trailing byte to the second chunk
instead of the body.  Concretely, body `"x\n"`, trailers `"a"`, `"b"`. -/
theorem rsplit_trailing_newline_cex :
    rsplit (['x', '\n'] ++ DELIM ++ ['a'] ++ DELIM ++ ['b']) 3 ≠ [['x', '\n'], ['a'], ['b']] ∧
    rsplit (['x', '\n'] ++ DELIM ++ ['a'] ++ DELIM ++ ['b']) 3 = [['x'], ['\n', 'a'], ['b']] := by
  constructor <;> decide

/-- Closed instance of `rsplit_trailers` with a body that itself contains a
delimiter sequence. -/
theorem rsplit_trailers_witness :
    rsplit ((['p'] ++ DELIM ++ ['q']) ++ DELIM ++ ['a'] ++ DELIM ++ ['b']) 3 =
      [['p'] ++ DELIM ++ ['q'], ['a'], ['b']] :=
  rsplit_trailers (['p'] ++ DELIM ++ ['q']) ['a'] ['b']
    (by decide) (by decide) (by decide) (by decide)

/-- Closed instance of `roundTrip_chunk_bounds`: the in-bounds branch at a
three-chunk output and the one-delimiter branch at a two-chunk output. -/
theorem roundTrip_chunk_bounds_witness :
    ((rsplit (['x'] ++ DELIM ++ ['a'] ++ DELIM ++ ['b']) 3).length = 3 ∧
      joinD (rsplit (['x'] ++ DELIM ++ ['a'] ++ DELIM ++ ['b']) 3) =
        ['x'] ++ DELIM ++ ['a'] ++ DELIM ++ ['b'] ∧
      (roundTrip (['x'] ++ DELIM ++ ['a'] ++ DELIM ++ ['b'])).isSome) ∧
    (∃ p0 p1, rsplit (['x'] ++ DELIM ++ ['a']) 3 = [p0, p1] ∧
      roundTrip (['x'] ++ DELIM ++ ['a']) = match unmarshalExtra p1 with
        | none => some (.error .badExtraJson)
        | some _ => none) :=
  ⟨(roundTrip_chunk_bounds (['x'] ++ DELIM ++ ['a'] ++ DELIM ++ ['b'])).1 (by decide),
   (roundTrip_chunk_bounds (['x'] ++ DELIM ++ ['a'])).2.2 (by decide)⟩

/-! ## Lemmas about parseHTTPVersion -/

theorem cutDot_not_mem (s : List Char) (h : '.' ∉ s) : cutDot s = (s, [], false) := by
  induction s with
  | nil => rfl
  | cons c rest ih =>
    have hc : ¬(c = '.') := fun e => h (by rw [e]; exact List.mem_cons_self _ _)
    rw [cutDot.eq_3 c rest (fun e => hc e), ih (fun hm => h (List.mem_cons_of_mem c hm))]

theorem cutDot_append (a b : List Char) (h : '.' ∉ a) : cutDot (a ++ '.' :: b) = (a, b, true) := by
  induction a with
  | nil => rw [List.nil_append, cutDot.eq_2]
  | cons c rest ih =>
    have hc : ¬(c = '.') := fun e => h (by rw [e]; exact List.mem_cons_self _ _)
    rw [List.cons_append, cutDot.eq_3 c _ (fun e => hc e),
      ih (fun hm => h (List.mem_cons_of_mem c hm))]

theorem parseHTTPVersion_eq (s : List Char) :
    parseHTTPVersion s =
      match atoi (versionMajor s) with
      | .error e => .error e
      | .ok ma =>
        match atoi (versionMinor s) with
        | .error e => .error e
        | .ok mi => .ok (ma, mi) := by
  unfold parseHTTPVersion versionMajor versionMinor
  rcases hcut : cutDot s with ⟨m, a, f⟩
  simp only [hcut]

theorem atoi_ok_of (s : List Char) (hn : numericShape s) (hr : atoiInRange (intOfNumeric s)) :
    atoi s = .ok (intOfNumeric s) := by
  unfold atoi
  rw [if_pos hn, if_pos hr]

/-- C7 amended: `parseHTTPVersion` accepts `"major.minor"` and bare-major
strings (minor defaulting to 0), and returns an error exactly when a
component is non-numeric **or overflows the platform integer range**
(`strconv.Atoi` also fails with a range error on numeric components outside
the signed 64-bit range); `RoundTrip` surfaces that error as its
malformed-version failure. -/
theorem parseHTTPVersion_forms :
    (∀ a b : List Char, '.' ∉ a →
      numericShape a → atoiInRange (intOfNumeric a) →
      numericShape b → atoiInRange (intOfNumeric b) →
      parseHTTPVersion (a ++ '.' :: b) = .ok (intOfNumeric a, intOfNumeric b))
    ∧
    (∀ s : List Char, '.' ∉ s → numericShape s → atoiInRange (intOfNumeric s) →
      parseHTTPVersion s = .ok (intOfNumeric s, 0))
    ∧
    (∀ s : List Char, parseHTTPVersion s = .error () ↔
      ¬((numericShape (versionMajor s) ∧ atoiInRange (intOfNumeric (versionMajor s))) ∧
        (numericShape (versionMinor s) ∧ atoiInRange (intOfNumeric (versionMinor s)))))
    ∧
    (∀ (body t1 t2 : List Char) (extra : CurlExtra) (hdr : HeaderMap),
      body.getLast? ≠ some '\n' → t1.getLast? ≠ some '\n' →
      splitD t1 = [t1] → splitD t2 = [t2] →
      unmarshalExtra t1 = some extra → unmarshalHeader t2 = some hdr →
      parseHTTPVersion extra.httpVersion.data = .error () →
      roundTrip (body ++ DELIM ++ t1 ++ DELIM ++ t2) = some (.error .badVersion)) := by
  have hmaj_app : ∀ a b : List Char, '.' ∉ a → versionMajor (a ++ '.' :: b) = a := by
    intro a b h
    unfold versionMajor
    rw [cutDot_append a b h]
    rfl
  have hmin_app : ∀ a b : List Char, '.' ∉ a → versionMinor (a ++ '.' :: b) = b := by
    intro a b h
    unfold versionMinor
    rw [cutDot_append a b h]
    rfl
  refine ⟨?_, ?_, ?_, ?_⟩
  · intro a b hdot hna hra hnb hrb
    rw [parseHTTPVersion_eq, hmaj_app a b hdot, hmin_app a b hdot,
      atoi_ok_of a hna hra, atoi_ok_of b hnb hrb]
  · intro s hdot hn hr
    have hmaj : versionMajor s = s := by
      unfold versionMajor
      rw [cutDot_not_mem s hdot]
      rfl
    have hmin : versionMinor s = ['0'] := by
      unfold versionMinor
      rw [cutDot_not_mem s hdot]
      rfl
    rw [parseHTTPVersion_eq, hmaj, hmin, atoi_ok_of s hn hr,
      show atoi ['0'] = .ok 0 from by decide]
  · intro s
    rw [parseHTTPVersion_eq]
    by_cases hM : numericShape (versionMajor s)
    · by_cases hMr : atoiInRange (intOfNumeric (versionMajor s))
      · by_cases hm : numericShape (versionMinor s)
        · by_cases hmr : atoiInRange (intOfNumeric (versionMinor s))
          · simp [atoi, hM, hMr, hm, hmr]
          · simp [atoi, hM, hMr, hm, hmr]
        · simp [atoi, hM, hMr, hm]
      · simp [atoi, hM, hMr]
    · simp [atoi, hM]
  · intro body t1 t2 extra hdr hb h1e h1 h2 hex hh hv
    unfold roundTrip
    rw [rsplit_trailers body t1 t2 hb h1e h1 h2]
    simp only [hex, hh, hv]

/-- Closed instance of `parseHTTPVersion_forms` at `"1.1"`. -/
theorem parseHTTPVersion_forms_witness :
    parseHTTPVersion (['1'] ++ '.' :: ['1']) = .ok (intOfNumeric ['1'], intOfNumeric ['1']) :=
  parseHTTPVersion_forms.1 ['1'] ['1'] (by decide) (by decide) (by decide) (by decide) (by decide)

/-- C7 as stated is false: a numeric component can still make
`parseHTTPVersion` fail, because `strconv.Atoi` returns a range error for a
numeric string outside the signed 64-bit range.  Concretely the bare-major
string `"9223372036854775808"` (2^63): both components are numeric (the
implicit minor is `"0"`), yet the parse errors. -/
theorem parseHTTPVersion_numeric_overflow_cex :
    numericShape (versionMajor ("9223372036854775808".data)) = true ∧
    numericShape (versionMinor ("9223372036854775808".data)) = true ∧
    parseHTTPVersion ("9223372036854775808".data) = .error () := by
  refine ⟨by decide, by decide, ?_⟩
  decide

/-! ## RoundTrip synthesis (C4) -/

/-- C4 amended: for subprocess output `body + DELIM + t1 + DELIM + t2` in
which the trailers contain no delimiter, neither the body nor the first
trailer ends in a newline byte, and the two trailers decode, `RoundTrip`
produces the response assembled from the three pieces (body bytes, status
and protocol version from trailer 1, canonicalized header set from trailer
2, `Close = true`, empty trailer set); in particular this holds for the
specification's concrete trailers, giving status 200, protocol `(1, 1)` and
a `Content-Type: text/html` header. -/
theorem roundTrip_synthesis :
    (∀ (body t1 t2 : List Char) (extra : CurlExtra) (hdr : HeaderMap) (mm : Int × Int),
      body.getLast? ≠ some '\n' → t1.getLast? ≠ some '\n' →
      splitD t1 = [t1] → splitD t2 = [t2] →
      unmarshalExtra t1 = some extra → unmarshalHeader t2 = some hdr →
      parseHTTPVersion extra.httpVersion.data = .ok mm →
      roundTrip (body ++ DELIM ++ t1 ++ DELIM ++ t2) = some (.ok {
        status := toString extra.responseCode
        statusCode := extra.responseCode
        proto := "HTTP/" ++ extra.httpVersion
        protoMajor := mm.1
        protoMinor := mm.2
        header := canonicalizeHeader hdr
        body := body
        contentLength := body.length
        transferEncoding := []
        close := true
        uncompressed := false
        trailer := [] }))
    ∧
    (∀ body : List Char, body.getLast? ≠ some '\n' →
      roundTrip (body ++ DELIM ++ trailer1 ++ DELIM ++ trailer2) = some (.ok {
        status := "200"
        statusCode := 200
        proto := "HTTP/1.1"
        protoMajor := 1
        protoMinor := 1
        header := [("Content-Type", ["text/html"])]
        body := body
        contentLength := body.length
        transferEncoding := []
        close := true
        uncompressed := false
        trailer := [] })) := by
  have hgen : ∀ (body t1 t2 : List Char) (extra : CurlExtra) (hdr : HeaderMap) (mm : Int × Int),
      body.getLast? ≠ some '\n' → t1.getLast? ≠ some '\n' →
      splitD t1 = [t1] → splitD t2 = [t2] →
      unmarshalExtra t1 = some extra → unmarshalHeader t2 = some hdr →
      parseHTTPVersion extra.httpVersion.data = .ok mm →
      roundTrip (body ++ DELIM ++ t1 ++ DELIM ++ t2) = some (.ok {
        status := toString extra.responseCode
        statusCode := extra.responseCode
        proto := "HTTP/" ++ extra.httpVersion
        protoMajor := mm.1
        protoMinor := mm.2
        header := canonicalizeHeader hdr
        body := body
        contentLength := body.length
        transferEncoding := []
        close := true
        uncompressed := false
        trailer := [] }) := by
    intro body t1 t2 extra hdr mm hb h1e h1 h2 hex hh hv
    obtain ⟨ma, mi⟩ := mm
    unfold roundTrip
    rw [rsplit_trailers body t1 t2 hb h1e h1 h2]
    simp only [hex, hh, hv]
  refine ⟨hgen, ?_⟩
  intro body hb
  have h := hgen body trailer1 trailer2 ⟨200, "1.1"⟩ [("Content-Type", ["text/html"])] (1, 1)
    hb (by decide) (by decide) (by decide) (by decide) (by decide) (by decide)
  rw [h]
  rfl

/-- Closed instance of `roundTrip_synthesis` at a concrete body. -/
theorem roundTrip_synthesis_witness :
    roundTrip ("page".data ++ DELIM ++ trailer1 ++ DELIM ++ trailer2) = some (.ok {
      status := "200"
      statusCode := 200
      proto := "HTTP/1.1"
      protoMajor := 1
      protoMinor := 1
      header := [("Content-Type", ["text/html"])]
      body := "page".data
      contentLength := ("page".data).length
      transferEncoding := []
      close := true
      uncompressed := false
      trailer := [] }) :=
  roundTrip_synthesis.2 ("page".data) (by decide)

/-- C4 as stated is false for bodies ending in a newline byte: the trailing
newline is absorbed into the first delimiter match, so the synthesized
response body is the original body minus its trailing newline (the shifted
newline lands as harmless leading whitespace of trailer 1, which still
decodes).  Concretely body `"x\n"` with the specification's trailers. -/
theorem roundTrip_body_newline_cex :
    ∃ resp, roundTrip (['x', '\n'] ++ DELIM ++ trailer1 ++ DELIM ++ trailer2) =
      some (.ok resp) ∧ resp.body = ['x'] ∧ resp.body ≠ ['x', '\n'] := by
  refine ⟨{
      status := "200"
      statusCode := 200
      proto := "HTTP/1.1"
      protoMajor := 1
      protoMinor := 1
      header := [("Content-Type", ["text/html"])]
      body := ['x']
      contentLength := 1
      transferEncoding := []
      close := true
      uncompressed := false
      trailer := [] }, ?_, rfl, by decide⟩
  decide

/-! ## Lemmas about the phrack crawl -/

theorem phrackTocStep_visited (s : PhrackState) (v : String) :
    (phrackTocStep s v).visited = s.visited := by
  unfold phrackTocStep
  split <;> rfl

theorem phrackPageAt_mem {site : PhrackSite} {u : String} {page : PhrackPage}
    (h : phrackPageAt site u = some page) : (u, page) ∈ site := by
  unfold phrackPageAt at h
  cases hf : List.find? (fun p => p.1 = u) site with
  | none => rw [hf] at h; simp at h
  | some p =>
    rw [hf] at h
    simp only [Option.map_some', Option.some.injEq] at h
    have hp := List.mem_of_find?_eq_some hf
    have hp1 : p.1 = u := by simpa using List.find?_some hf
    have hpe : p = (u, page) := by
      obtain ⟨p1, p2⟩ := p
      simp only at hp1 h
      rw [hp1, h]
    rwa [hpe] at hp

theorem phrackRunTissue_mono (visit : String → PhrackState → Option PhrackState)
    (hv : ∀ v s s', visit v s = some s' → s.visited ⊆ s'.visited) :
    ∀ (urls : List String) (s s' : PhrackState),
      phrackRunTissue visit urls s = some s' → s.visited ⊆ s'.visited := by
  intro urls
  induction urls with
  | nil =>
    intro s s' h
    simp only [phrackRunTissue] at h
    cases h
    exact List.Subset.refl _
  | cons v rest ih =>
    intro s s' h
    simp only [phrackRunTissue] at h
    rcases Option.bind_eq_some.mp h with ⟨s'', h1, h2⟩
    have t1 := hv v _ s'' h1
    rw [phrackTocStep_visited s v] at t1
    exact t1.trans (ih _ _ h2)

theorem phrackRunDetails_mono (visit : String → PhrackState → Option PhrackState)
    (hv : ∀ v s s', visit v s = some s' → s.visited ⊆ s'.visited) :
    ∀ (urls : List String) (s s' : PhrackState),
      phrackRunDetails visit urls s = some s' → s.visited ⊆ s'.visited := by
  intro urls
  induction urls with
  | nil =>
    intro s s' h
    simp only [phrackRunDetails] at h
    cases h
    exact List.Subset.refl _
  | cons v rest ih =>
    intro s s' h
    simp only [phrackRunDetails] at h
    rcases Option.bind_eq_some.mp h with ⟨s'', h1, h2⟩
    exact (hv v s s'' h1).trans (ih _ _ h2)

theorem phrackVisit_mono (site : PhrackSite) :
    ∀ (fuel : Nat) (u : String) (s s' : PhrackState),
      phrackVisit site fuel u s = some s' → s.visited ⊆ s'.visited := by
  intro fuel
  induction fuel with
  | zero =>
    intro u s s' h
    simp [phrackVisit] at h
  | succ g ih =>
    intro u s s' h
    simp only [phrackVisit] at h
    by_cases hv : u ∈ s.visited
    · rw [if_pos hv] at h
      cases h
      exact List.Subset.refl _
    · rw [if_neg hv] at h
      cases hpage : phrackPageAt site u with
      | none =>
        simp only [hpage] at h
        cases h
        exact List.subset_cons_self _ _
      | some page =>
        simp only [hpage] at h
        rcases Option.bind_eq_some.mp h with ⟨s2, h2, h3⟩
        rcases Option.map_eq_some'.mp h3 with ⟨s3, h4, h5⟩
        subst h5
        exact ((List.subset_cons_self u s.visited).trans
          (phrackRunTissue_mono _ ih page.tissueLinks _ s2 h2)).trans
          (phrackRunDetails_mono _ ih page.detailLinks s2 s3 h4)

theorem phrackUnseen_mono (U : Finset String) {s t : PhrackState}
    (h : s.visited ⊆ t.visited) : phrackUnseen U t ≤ phrackUnseen U s := by
  apply Finset.card_le_card
  intro v hv
  simp only [Finset.mem_filter] at hv ⊢
  exact ⟨hv.1, fun hm => hv.2 (h hm)⟩

theorem phrackUnseen_tocStep (U : Finset String) (s : PhrackState) (v : String) :
    phrackUnseen U (phrackTocStep s v) = phrackUnseen U s := by
  unfold phrackUnseen
  simp only [phrackTocStep_visited]

theorem phrackUnseen_insert (U : Finset String) (s : PhrackState) (u : String)
    (hU : u ∈ U) (hnv : u ∉ s.visited) :
    phrackUnseen U { s with visited := u :: s.visited } < phrackUnseen U s := by
  apply Finset.card_lt_card
  have hsub : U.filter (fun v => v ∉ ({ s with visited := u :: s.visited } : PhrackState).visited)
      ⊆ U.filter (fun v => v ∉ s.visited) := by
    intro v hv
    simp only [Finset.mem_filter, List.mem_cons] at hv ⊢
    exact ⟨hv.1, fun hm => hv.2 (Or.inr hm)⟩
  rw [Finset.ssubset_iff_of_subset hsub]
  refine ⟨u, ?_, ?_⟩
  · simp only [Finset.mem_filter]
    exact ⟨hU, hnv⟩
  · simp

theorem phrackRunTissue_isSome (visit : String → PhrackState → Option PhrackState)
    (U : Finset String) (F : Nat)
    (hv_some : ∀ v s, v ∈ U → phrackUnseen U s < F → (visit v s).isSome)
    (hv_mono : ∀ v s s', visit v s = some s' → s.visited ⊆ s'.visited) :
    ∀ (urls : List String) (s : PhrackState), (∀ v ∈ urls, v ∈ U) →
      phrackUnseen U s < F → (phrackRunTissue visit urls s).isSome := by
  intro urls
  induction urls with
  | nil =>
    intro s _ _
    simp [phrackRunTissue]
  | cons v rest ih =>
    intro s hsub hlt
    simp only [phrackRunTissue]
    have hv1 := hv_some v (phrackTocStep s v) (hsub v (List.mem_cons_self _ _))
      (by rw [phrackUnseen_tocStep]; exact hlt)
    rcases Option.isSome_iff_exists.mp hv1 with ⟨s'', h1⟩
    have hle : phrackUnseen U s'' ≤ phrackUnseen U s := by
      have h2 := phrackUnseen_mono U (hv_mono v _ s'' h1)
      rw [phrackUnseen_tocStep] at h2
      exact h2
    have hv2 := ih s'' (fun w hw => hsub w (List.mem_cons_of_mem _ hw))
      (Nat.lt_of_le_of_lt hle hlt)
    simp only [h1, Option.some_bind]
    exact hv2

theorem phrackRunDetails_isSome (visit : String → PhrackState → Option PhrackState)
    (U : Finset String) (F : Nat)
    (hv_some : ∀ v s, v ∈ U → phrackUnseen U s < F → (visit v s).isSome)
    (hv_mono : ∀ v s s', visit v s = some s' → s.visited ⊆ s'.visited) :
    ∀ (urls : List String) (s : PhrackState), (∀ v ∈ urls, v ∈ U) →
      phrackUnseen U s < F → (phrackRunDetails visit urls s).isSome := by
  intro urls
  induction urls with
  | nil =>
    intro s _ _
    simp [phrackRunDetails]
  | cons v rest ih =>
    intro s hsub hlt
    simp only [phrackRunDetails]
    have hv1 := hv_some v s (hsub v (List.mem_cons_self _ _)) hlt
    rcases Option.isSome_iff_exists.mp hv1 with ⟨s'', h1⟩
    have hle : phrackUnseen U s'' ≤ phrackUnseen U s := phrackUnseen_mono U (hv_mono v s s'' h1)
    have hv2 := ih s'' (fun w hw => hsub w (List.mem_cons_of_mem _ hw))
      (Nat.lt_of_le_of_lt hle hlt)
    simp only [h1, Option.some_bind]
    exact hv2

theorem phrackVisit_isSome (site : PhrackSite) (U : Finset String)
    (hsite : ∀ p ∈ site, ∀ v, v ∈ p.2.tissueLinks ++ p.2.detailLinks → v ∈ U) :
    ∀ (fuel : Nat) (u : String) (s : PhrackState), u ∈ U → phrackUnseen U s < fuel →
      (phrackVisit site fuel u s).isSome := by
  intro fuel
  induction fuel with
  | zero =>
    intro u s _ h
    exact absurd h (Nat.not_lt_zero _)
  | succ g ih =>
    intro u s hU hlt
    simp only [phrackVisit]
    by_cases hv : u ∈ s.visited
    · rw [if_pos hv]
      rfl
    · rw [if_neg hv]
      have hdec : phrackUnseen U { s with visited := u :: s.visited } < g := by
        have h1 := phrackUnseen_insert U s u hU hv
        omega
      cases hpage : phrackPageAt site u with
      | none => simp [hpage]
      | some page =>
        have hmem := phrackPageAt_mem hpage
        have hlinks := hsite _ hmem
        have htis := phrackRunTissue_isSome (phrackVisit site g) U g ih
          (phrackVisit_mono site g) page.tissueLinks { s with visited := u :: s.visited }
          (fun v hv' => hlinks v (List.mem_append_left _ hv')) hdec
        rcases Option.isSome_iff_exists.mp htis with ⟨s2, h2⟩
        have hdec2 : phrackUnseen U s2 < g :=
          Nat.lt_of_le_of_lt
            (phrackUnseen_mono U (phrackRunTissue_mono _ (phrackVisit_mono site g) _ _ _ h2))
            hdec
        have hdet := phrackRunDetails_isSome (phrackVisit site g) U g ih
          (phrackVisit_mono site g) page.detailLinks s2
          (fun v hv' => hlinks v (List.mem_append_right _ hv')) hdec2
        rcases Option.isSome_iff_exists.mp hdet with ⟨s3, h3⟩
        simp [hpage, h2, h3]

theorem phrackTocStep_inv (s : PhrackState) (v : String) (hs : PhrackInv s) :
    PhrackInv (phrackTocStep s v) := by
  unfold phrackTocStep
  split
  · exact hs
  · next hvnot =>
    obtain ⟨hnd, hiff⟩ := hs
    constructor
    · show (List.map TOCEntry.url (s.toc ++ [⟨v⟩])).Nodup
      rw [List.map_append, List.nodup_append]
      refine ⟨hnd, List.nodup_singleton v, ?_⟩
      intro a ha hb
      simp only [List.map_cons, List.map_nil, List.mem_singleton] at hb
      subst hb
      exact hvnot ((hiff a).mp ha)
    · intro w
      show w ∈ List.map TOCEntry.url (s.toc ++ [⟨v⟩]) ↔ w ∈ v :: s.tocSet
      rw [List.map_append]
      simp only [List.mem_append, List.map_cons, List.map_nil, List.mem_singleton,
        List.mem_cons, hiff w]
      tauto

theorem phrackRunTissue_inv (visit : String → PhrackState → Option PhrackState)
    (hv : ∀ v s s', visit v s = some s' → PhrackInv s → PhrackInv s') :
    ∀ (urls : List String) (s s' : PhrackState),
      phrackRunTissue visit urls s = some s' → PhrackInv s → PhrackInv s' := by
  intro urls
  induction urls with
  | nil =>
    intro s s' h hs
    simp only [phrackRunTissue] at h
    cases h
    exact hs
  | cons v rest ih =>
    intro s s' h hs
    simp only [phrackRunTissue] at h
    rcases Option.bind_eq_some.mp h with ⟨s'', h1, h2⟩
    exact ih _ _ h2 (hv v _ s'' h1 (phrackTocStep_inv s v hs))

theorem phrackRunDetails_inv (visit : String → PhrackState → Option PhrackState)
    (hv : ∀ v s s', visit v s = some s' → PhrackInv s → PhrackInv s') :
    ∀ (urls : List String) (s s' : PhrackState),
      phrackRunDetails visit urls s = some s' → PhrackInv s → PhrackInv s' := by
  intro urls
  induction urls with
  | nil =>
    intro s s' h hs
    simp only [phrackRunDetails] at h
    cases h
    exact hs
  | cons v rest ih =>
    intro s s' h hs
    simp only [phrackRunDetails] at h
    rcases Option.bind_eq_some.mp h with ⟨s'', h1, h2⟩
    exact ih _ _ h2 (hv v s s'' h1 hs)

theorem phrackVisit_inv (site : PhrackSite) :
    ∀ (fuel : Nat) (u : String) (s s' : PhrackState),
      phrackVisit site fuel u s = some s' → PhrackInv s → PhrackInv s' := by
  intro fuel
  induction fuel with
  | zero =>
    intro u s s' h
    simp [phrackVisit] at h
  | succ g ih =>
    intro u s s' h hs
    simp only [phrackVisit] at h
    by_cases hv : u ∈ s.visited
    · rw [if_pos hv] at h
      cases h
      exact hs
    · rw [if_neg hv] at h
      cases hpage : phrackPageAt site u with
      | none =>
        simp only [hpage] at h
        cases h
        exact hs
      | some page =>
        simp only [hpage] at h
        rcases Option.bind_eq_some.mp h with ⟨s2, h2, h3⟩
        rcases Option.map_eq_some'.mp h3 with ⟨s3, h4, h5⟩
        subst h5
        exact phrackRunDetails_inv _ ih page.detailLinks s2 s3 h4
          (phrackRunTissue_inv _ ih page.tissueLinks _ s2 h2 hs)

/-- C3: the recursive dedup graph walk appends a TOCEntry only for URLs not
seen before, so for every link graph the resulting TOC sequence holds each
URL at most once, and the traversal terminates (the crawl completes within
its fuel bound); concretely, on the two-page site whose content links form
the cycle a → b → a, the crawl terminates with TOC `[b, a]`, each URL once. -/
theorem scrapePhrack_dedup_terminating :
    (∀ (site : PhrackSite) (base : String),
      ∃ s, scrapePhrack site base = some s ∧ (s.toc.map TOCEntry.url).Nodup)
    ∧
    ((scrapePhrack [("a", ⟨["b"], [], "ta", "pa"⟩), ("b", ⟨["a"], [], "tb", "pb"⟩)] "a").map
      PhrackState.toc = some [⟨"b"⟩, ⟨"a"⟩]) := by
  constructor
  · intro site base
    have hsite : ∀ p ∈ site, ∀ v, v ∈ p.2.tissueLinks ++ p.2.detailLinks →
        v ∈ (phrackURLs site base).toFinset := by
      intro p hp v hv
      rw [List.mem_toFinset]
      unfold phrackURLs
      refine List.mem_cons_of_mem _ (List.mem_append_right _ ?_)
      exact List.mem_flatMap.mpr ⟨p, hp, hv⟩
    have hbase : base ∈ (phrackURLs site base).toFinset := by
      rw [List.mem_toFinset]
      exact List.mem_cons_self _ _
    have hfuel : phrackUnseen (phrackURLs site base).toFinset ⟨[], [], [], []⟩ <
        (phrackURLs site base).length + 1 := by
      unfold phrackUnseen
      have he : (phrackURLs site base).toFinset.filter
          (fun v => v ∉ (PhrackState.mk [] [] [] []).visited) =
          (phrackURLs site base).toFinset := by
        apply Finset.filter_true_of_mem
        intro x _
        simp
      rw [he]
      have hle := List.toFinset_card_le (phrackURLs site base)
      omega
    have hs := phrackVisit_isSome site (phrackURLs site base).toFinset hsite
      ((phrackURLs site base).length + 1) base ⟨[], [], [], []⟩ hbase hfuel
    rcases Option.isSome_iff_exists.mp hs with ⟨s, hcrawl⟩
    refine ⟨s, hcrawl, ?_⟩
    have hinv := phrackVisit_inv site ((phrackURLs site base).length + 1) base _ s
      hcrawl ⟨List.nodup_nil, by intro v; simp⟩
    exact hinv.1
  · decide

/-! ## The scribblehub chain walk (C6, C9) -/

/-- C6: a chain of pages p1 → p2 → p3 with p3 carrying no next link produces
exactly three chapters, TOC entries in visitation order `[p1, p2, p3]`, and
the walk terminates having fetched each page once (`fetched` is the model's
fetch log: p1 is fetched first and never re-fetched). -/
theorem scrapeScribblehub_chain (t1 t2 t3 c1 c2 c3 : String)
    (hc1 : c1 ≠ "") (hc2 : c2 ≠ "") (hc3 : c3 ≠ "") :
    scrapeScribblehub [
      ("p1", ⟨"", "", "", "", "", t1, c1, "p2"⟩),
      ("p2", ⟨"", "", "", "", "", t2, c2, "p3"⟩),
      ("p3", ⟨"", "", "", "", "", t3, c3, ""⟩)] "p1" =
    some ⟨["p3", "p2", "p1"], ["p1", "p2", "p3"], ⟨"", "", "", ""⟩,
      [⟨"p1"⟩, ⟨"p2"⟩, ⟨"p3"⟩],
      [("p1", ⟨t1, c1⟩), ("p2", ⟨t2, c2⟩), ("p3", ⟨t3, c3⟩)]⟩ := by
  simp [scrapeScribblehub, scribbleURLs, scribbleVisit, scribblePageAt, chaptersPut,
    hc1, hc2, hc3]

/-- Closed instance of `scrapeScribblehub_chain` at concrete chapters. -/
theorem scrapeScribblehub_chain_witness :
    scrapeScribblehub [
      ("p1", ⟨"", "", "", "", "", "t1", "c1", "p2"⟩),
      ("p2", ⟨"", "", "", "", "", "t2", "c2", "p3"⟩),
      ("p3", ⟨"", "", "", "", "", "t3", "c3", ""⟩)] "p1" =
    some ⟨["p3", "p2", "p1"], ["p1", "p2", "p3"], ⟨"", "", "", ""⟩,
      [⟨"p1"⟩, ⟨"p2"⟩, ⟨"p3"⟩],
      [("p1", ⟨"t1", "c1"⟩), ("p2", ⟨"t2", "c2"⟩), ("p3", ⟨"t3", "c3"⟩)]⟩ :=
  scrapeScribblehub_chain "t1" "t2" "t3" "c1" "c2" "c3" (by decide) (by decide) (by decide)

/-- C9 as stated is false: the source captures Metadata unconditionally on
every visited page with a first-chapter link (it has no captured-yet guard),
so a later such page overwrites the first one's metadata.  Concrete run:
index page p1 (metadata title "A") links first chapter c1, whose next link
reaches p2, a second page with a first-chapter link and metadata title "B";
the final metadata title is "B", not "A". -/
theorem scrapeScribblehub_meta_overwrite_cex :
    (scrapeScribblehub [
      ("p1", ⟨"c1", "A", "", "", "", "", "", ""⟩),
      ("c1", ⟨"", "", "", "", "", "t", "c", "p2"⟩),
      ("p2", ⟨"c1", "B", "", "", "", "", "", ""⟩)] "p1").map
        (fun s => s.meta.title) = some "B" ∧ some "B" ≠ some "A" := by
  constructor <;> decide

/-- C9 amended: Metadata is captured unconditionally from every visited page
carrying a first-chapter link, so when several such pages are visited the
last one visited wins (the in-practice guarantee of populate-once rests on
only the index page carrying `.read_buttons`, not on a check in the code).
On the family of runs below (arbitrary metadata field values), the final
metadata is that of p2, the later first-link page, with each page fetched
once. -/
theorem scrapeScribblehub_meta_last_wins (ta1 au1 cv1 d1 ta2 au2 cv2 d2 tc cc : String)
    (hcc : cc ≠ "") :
    scrapeScribblehub [
      ("p1", ⟨"c1", ta1, au1, cv1, d1, "", "", ""⟩),
      ("c1", ⟨"", "", "", "", "", tc, cc, "p2"⟩),
      ("p2", ⟨"c1", ta2, au2, cv2, d2, "", "", ""⟩)] "p1" =
    some ⟨["p2", "c1", "p1"], ["p1", "c1", "p2"], ⟨ta2, au2, cv2, d2⟩,
      [⟨"c1"⟩], [("c1", ⟨tc, cc⟩)]⟩ := by
  simp [scrapeScribblehub, scribbleURLs, scribbleVisit, scribblePageAt, chaptersPut, hcc]

/-- Closed instance of `scrapeScribblehub_meta_last_wins`. -/
theorem scrapeScribblehub_meta_last_wins_witness :
    scrapeScribblehub [
      ("p1", ⟨"c1", "A", "a1", "v1", "d1", "", "", ""⟩),
      ("c1", ⟨"", "", "", "", "", "t", "c", "p2"⟩),
      ("p2", ⟨"c1", "B", "a2", "v2", "d2", "", "", ""⟩)] "p1" =
    some ⟨["p2", "c1", "p1"], ["p1", "c1", "p2"], ⟨"B", "a2", "v2", "d2"⟩,
      [⟨"c1"⟩], [("c1", ⟨"t", "c"⟩)]⟩ :=
  scrapeScribblehub_meta_last_wins "A" "a1" "v1" "d1" "B" "a2" "v2" "d2" "t" "c" (by decide)

end EbookScraper
